import Mathlib

/-!
Verification of the browsergame-engine repository: a shallow embedding of
the checksum-gated state-update law (`shared/src/lib.rs`), the client
reconciliation step (`client/src/lib.rs`), the connection poll loop
(`server/src/lib.rs`), the entity store (`shared/src/utils/entity_set.rs`)
and the resource quantity algebra (`shared/src/utils/qty.rs`), together
with theorems settling the specification claims about them.

`CustomMap<K, V>` wraps an `IndexMap`: an insertion-ordered key/value map.
It is embedded as an association list `List (K × V)` whose order is the
map's iteration order; lookup returns the first (in a well-formed map the
only) entry with the given key.
-/

set_option maxHeartbeats 1000000

namespace EngineProof

/-- Lookup in the association-list embedding of `CustomMap` / `IndexMap`:
`map.get(&k)`, returning the value stored under key `k`. -/
def alookup {K V : Type} [DecidableEq K] : List (K × V) → K → Option V
  | [], _ => none
  | p :: rest, k => if p.1 = k then some p.2 else alookup rest k

@[simp]
theorem alookup_nil {K V : Type} [DecidableEq K] (k : K) :
    alookup ([] : List (K × V)) k = none := rfl

@[simp]
theorem alookup_cons {K V : Type} [DecidableEq K] (p : K × V) (rest : List (K × V)) (k : K) :
    alookup (p :: rest) k = if p.1 = k then some p.2 else alookup rest k := rfl

theorem alookup_append {K V : Type} [DecidableEq K] (l₁ l₂ : List (K × V)) (k : K) :
    alookup (l₁ ++ l₂) k = ((alookup l₁ k).orElse (fun _ => alookup l₂ k)) := by
  induction l₁ with
  | nil => simp [alookup]
  | cons p rest ih =>
    by_cases h : p.1 = k <;> simp [alookup, h, ih]

theorem alookup_eq_none_iff {K V : Type} [DecidableEq K] (l : List (K × V)) (k : K) :
    alookup l k = none ↔ k ∉ l.map Prod.fst := by
  induction l with
  | nil => simp [alookup]
  | cons p rest ih =>
    by_cases h : p.1 = k
    · subst h; simp [alookup]
    · have h2 : ¬ k = p.1 := fun hc => h hc.symm
      simp [alookup, h, h2, ih]

theorem alookup_isSome_of_mem {K V : Type} [DecidableEq K] {l : List (K × V)} {p : K × V}
    (hmem : p ∈ l) : (alookup l p.1).isSome := by
  induction l with
  | nil => cases hmem
  | cons q rest ih =>
    rcases List.mem_cons.mp hmem with h | h
    · subst h; simp [alookup]
    · by_cases hq : q.1 = p.1 <;> simp [alookup, hq, ih h]

theorem alookup_eq_some_of_mem_nodup {K V : Type} [DecidableEq K] {l : List (K × V)}
    {k : K} {v : V} (hnd : (l.map Prod.fst).Nodup) (hmem : (k, v) ∈ l) :
    alookup l k = some v := by
  induction l with
  | nil => cases hmem
  | cons p rest ih =>
    simp only [List.map_cons, List.nodup_cons] at hnd
    rcases List.mem_cons.mp hmem with h | h
    · subst h; simp [alookup]
    · have hne : p.1 ≠ k := by
        intro heq
        exact hnd.1 (heq ▸ (List.mem_map.mpr ⟨(k, v), h, rfl⟩))
      simp [alookup, hne, ih hnd.2 h]

theorem mem_of_alookup_eq_some {K V : Type} [DecidableEq K] {l : List (K × V)}
    {k : K} {v : V} (h : alookup l k = some v) : (k, v) ∈ l := by
  induction l with
  | nil => simp [alookup] at h
  | cons p rest ih =>
    by_cases hp : p.1 = k
    · simp [alookup, hp] at h
      subst h
      exact hp ▸ List.mem_cons_self p rest
    · simp [alookup, hp] at h
      exact List.mem_cons_of_mem _ (ih h)

/-! ## Resource quantity algebra (`shared/src/utils/qty.rs`)

`Qty<T>` is a sparse map from resource kind to a `u64` count, embedded
with `Nat` values; all `u64` arithmetic is made explicit with `% 2 ^ 64`.
-/

/-- The `u64` modulus. -/
def U64 : Nat := 2 ^ 64

/-- Rust `Qty<T>(CustomMap<T, u64>)`. -/
structure Qty (T : Type) where
  toMap : List (T × Nat)

/-- Rust `Qty::get`: `self.0.get(resource).copied().unwrap_or_default()`. -/
def Qty.get {T : Type} [DecidableEq T] (q : Qty T) (r : T) : Nat :=
  (alookup q.toMap r).getD 0

/-- The key list of the underlying map (`self.0.keys()`). -/
def Qty.keys {T : Type} (q : Qty T) : List T :=
  q.toMap.map Prod.fst

/-- Rust `*map.entry(k).or_default() += n` on `u64` values: insert `0` at the end
if `k` is absent (`IndexMap::entry` inserts at the end), then add `n` with
`u64` wrap-around. -/
def entryAddU64 {T : Type} [DecidableEq T] : List (T × Nat) → T → Nat → List (T × Nat)
  | [], k, n => [(k, (0 + n) % U64)]
  | p :: rest, k, n =>
    if p.1 = k then (p.1, (p.2 + n) % U64) :: rest else p :: entryAddU64 rest k n

/-- Rust `*map.entry(k).or_default() -= n` on `u64` values: insert `0` at the end
if `k` is absent, then subtract `n` with `u64` wrap-around
(`(2 ^ 64 + v - n) % 2 ^ 64` is the wrapped difference for `v, n < 2 ^ 64`). -/
def entrySubU64 {T : Type} [DecidableEq T] : List (T × Nat) → T → Nat → List (T × Nat)
  | [], k, n => [(k, (U64 + 0 - n) % U64)]
  | p :: rest, k, n =>
    if p.1 = k then (p.1, (U64 + p.2 - n) % U64) :: rest else p :: entrySubU64 rest k n

/-- The union of both operands' key sets, as collected into an `FxHashSet`
in the source; embedded as the deduplicated concatenation. -/
def Qty.unionKeys {T : Type} [DecidableEq T] (a b : Qty T) : List T :=
  (a.keys ++ b.keys).dedup

/-- Rust `Qty::covers`: for every resource in the union of both key sets, check
`self.get(r) >= cost.get(r)`; `false` as soon as one fails. -/
def Qty.covers {T : Type} [DecidableEq T] (a c : Qty T) : Bool :=
  (Qty.unionKeys a c).all (fun k => decide (c.get k ≤ a.get k))

/-- Rust `impl Add for Qty` : for every resource in the union of both key sets,
`*self.0.entry(r).or_default() += *rhs.0.entry(r).or_default()`. -/
def Qty.addQ {T : Type} [DecidableEq T] (a b : Qty T) : Qty T :=
  ⟨(Qty.unionKeys a b).foldl (fun m k => entryAddU64 m k (b.get k)) a.toMap⟩

/-- Rust `impl Sub for Qty` : for every resource in the union of both key sets,
`*self.0.entry(r).or_default() -= *rhs.0.entry(r).or_default()`. -/
def Qty.subQ {T : Type} [DecidableEq T] (a b : Qty T) : Qty T :=
  ⟨(Qty.unionKeys a b).foldl (fun m k => entrySubU64 m k (b.get k)) a.toMap⟩

/-- Rust `impl AddAssign for Qty`: the same loop body as `Add`. -/
def Qty.addAssign {T : Type} [DecidableEq T] (a b : Qty T) : Qty T :=
  ⟨(Qty.unionKeys a b).foldl (fun m k => entryAddU64 m k (b.get k)) a.toMap⟩

/-- Rust `impl SubAssign for Qty`: the same loop body as `Sub`. -/
def Qty.subAssign {T : Type} [DecidableEq T] (a b : Qty T) : Qty T :=
  ⟨(Qty.unionKeys a b).foldl (fun m k => entrySubU64 m k (b.get k)) a.toMap⟩

/-- Rust `Qty::with`: `*self.0.entry(resource).or_default() += num`, returning self. -/
def Qty.withQ {T : Type} [DecidableEq T] (q : Qty T) (r : T) (n : Nat) : Qty T :=
  ⟨entryAddU64 q.toMap r n⟩

/-- Rust `Qty::default()`: the empty map. -/
def Qty.defaultQ (T : Type) : Qty T := ⟨[]⟩

theorem entryAddU64_get_same {T : Type} [DecidableEq T] (m : List (T × Nat)) (k : T) (n : Nat) :
    (alookup (entryAddU64 m k n) k).getD 0 = ((alookup m k).getD 0 + n) % U64 := by
  induction m with
  | nil => simp [entryAddU64, alookup]
  | cons p rest ih =>
    by_cases h : p.1 = k <;> simp [entryAddU64, alookup, h, ih]

theorem entryAddU64_get_other {T : Type} [DecidableEq T] (m : List (T × Nat)) (k k' : T)
    (n : Nat) (hne : k ≠ k') : alookup (entryAddU64 m k n) k' = alookup m k' := by
  induction m with
  | nil => simp [entryAddU64, alookup, hne]
  | cons p rest ih =>
    by_cases h : p.1 = k
    · subst h; simp [entryAddU64, alookup, hne]
    · by_cases h2 : p.1 = k' <;> simp [entryAddU64, alookup, h, h2, Ne.symm hne, ih]

theorem entrySubU64_get_same {T : Type} [DecidableEq T] (m : List (T × Nat)) (k : T) (n : Nat) :
    (alookup (entrySubU64 m k n) k).getD 0 = (U64 + (alookup m k).getD 0 - n) % U64 := by
  induction m with
  | nil => simp [entrySubU64, alookup]
  | cons p rest ih =>
    by_cases h : p.1 = k <;> simp [entrySubU64, alookup, h, ih]

theorem entrySubU64_get_other {T : Type} [DecidableEq T] (m : List (T × Nat)) (k k' : T)
    (n : Nat) (hne : k ≠ k') : alookup (entrySubU64 m k n) k' = alookup m k' := by
  induction m with
  | nil => simp [entrySubU64, alookup, hne]
  | cons p rest ih =>
    by_cases h : p.1 = k
    · subst h; simp [entrySubU64, alookup, hne]
    · by_cases h2 : p.1 = k' <;> simp [entrySubU64, alookup, h, h2, Ne.symm hne, ih]

theorem qty_get_eq_zero_of_not_mem_keys {T : Type} [DecidableEq T] {q : Qty T} {k : T}
    (h : k ∉ q.keys) : q.get k = 0 := by
  have h2 : alookup q.toMap k = none := (alookup_eq_none_iff _ _).mpr h
  simp [Qty.get, h2]

theorem foldl_entryAddU64_get {T : Type} [DecidableEq T] (ks : List T) (hnd : ks.Nodup)
    (m : List (T × Nat)) (g : T → Nat) (k : T) :
    (alookup (ks.foldl (fun m k => entryAddU64 m k (g k)) m) k).getD 0
      = if k ∈ ks then ((alookup m k).getD 0 + g k) % U64 else (alookup m k).getD 0 := by
  induction ks generalizing m with
  | nil => simp
  | cons k0 rest ih =>
    simp only [List.nodup_cons] at hnd
    simp only [List.foldl_cons]
    by_cases hk : k = k0
    · subst hk
      rw [ih hnd.2]
      simp [hnd.1, entryAddU64_get_same]
    · rw [ih hnd.2]
      rw [entryAddU64_get_other m k0 k (g k0) (fun hc => hk hc.symm)]
      by_cases hmem : k ∈ rest <;> simp [hmem, hk]

theorem foldl_entrySubU64_get {T : Type} [DecidableEq T] (ks : List T) (hnd : ks.Nodup)
    (m : List (T × Nat)) (g : T → Nat) (k : T) :
    (alookup (ks.foldl (fun m k => entrySubU64 m k (g k)) m) k).getD 0
      = if k ∈ ks then (U64 + (alookup m k).getD 0 - g k) % U64 else (alookup m k).getD 0 := by
  induction ks generalizing m with
  | nil => simp
  | cons k0 rest ih =>
    simp only [List.nodup_cons] at hnd
    simp only [List.foldl_cons]
    by_cases hk : k = k0
    · subst hk
      rw [ih hnd.2]
      simp [hnd.1, entrySubU64_get_same]
    · rw [ih hnd.2]
      rw [entrySubU64_get_other m k0 k (g k0) (fun hc => hk hc.symm)]
      by_cases hmem : k ∈ rest <;> simp [hmem, hk]

theorem mem_unionKeys_iff {T : Type} [DecidableEq T] (a b : Qty T) (k : T) :
    k ∈ Qty.unionKeys a b ↔ k ∈ a.keys ∨ k ∈ b.keys := by
  simp [Qty.unionKeys, List.mem_dedup, List.mem_append]

/-- C8: `Qty::covers` returns `true` iff, for every resource kind appearing
in either operand, this quantity's amount (absent key read as `0`) is at
least the cost's amount for that kind. -/
theorem c8_qty_covers_iff {T : Type} [DecidableEq T] (a c : Qty T) :
    a.covers c = true ↔ ∀ k, (k ∈ a.keys ∨ k ∈ c.keys) → c.get k ≤ a.get k := by
  unfold Qty.covers
  rw [List.all_eq_true]
  constructor
  · intro h k hk
    have := h k ((mem_unionKeys_iff a c k).mpr hk)
    exact of_decide_eq_true this
  · intro h k hk
    exact decide_eq_true (h k ((mem_unionKeys_iff a c k).mp hk))

theorem c8_witness :
    Qty.covers (Qty.defaultQ Nat) ((Qty.defaultQ Nat).withQ 0 0) = true :=
  (c8_qty_covers_iff (Qty.defaultQ Nat) ((Qty.defaultQ Nat).withQ 0 0)).mpr (by
    intro k hk
    have hk0 : k = 0 := by
      rcases hk with h | h
      · simp [Qty.keys, Qty.defaultQ] at h
      · simpa [Qty.keys, Qty.defaultQ, Qty.withQ, entryAddU64] using h
    subst hk0
    simp [Qty.get, Qty.defaultQ, Qty.withQ, entryAddU64, alookup])

/-- C9: `Qty` addition and subtraction act pointwise over the union of both
operands' key sets on the `u64` counters (arithmetic modulo `2 ^ 64`, so
subtraction is unchecked and wraps below zero instead of clamping), and the
compound-assignment operators have exactly the same behavior. -/
theorem c9_qty_add_sub_pointwise {T : Type} [DecidableEq T] (a b : Qty T) (k : T) :
    (a.addQ b).get k = (a.get k + b.get k) % U64
      ∧ (a.subQ b).get k = (U64 + a.get k - b.get k) % U64
      ∧ a.addAssign b = a.addQ b
      ∧ a.subAssign b = a.subQ b := by
  have hnd : (Qty.unionKeys a b).Nodup := List.nodup_dedup _
  refine ⟨?_, ?_, rfl, rfl⟩
  · show (alookup ((Qty.unionKeys a b).foldl (fun m k => entryAddU64 m k (b.get k)) a.toMap) k).getD 0 = _
    rw [foldl_entryAddU64_get (Qty.unionKeys a b) hnd a.toMap (fun k => b.get k) k]
    by_cases hm : k ∈ Qty.unionKeys a b
    · simp [hm, Qty.get]
    · have hab := (mem_unionKeys_iff a b k).not.mp hm
      push_neg at hab
      have ha : a.get k = 0 := qty_get_eq_zero_of_not_mem_keys hab.1
      have hb : b.get k = 0 := qty_get_eq_zero_of_not_mem_keys hab.2
      simp only [hm, if_false]
      show a.get k = (a.get k + b.get k) % U64
      simp [ha, hb]
  · show (alookup ((Qty.unionKeys a b).foldl (fun m k => entrySubU64 m k (b.get k)) a.toMap) k).getD 0 = _
    rw [foldl_entrySubU64_get (Qty.unionKeys a b) hnd a.toMap (fun k => b.get k) k]
    by_cases hm : k ∈ Qty.unionKeys a b
    · simp [hm, Qty.get]
    · have hab := (mem_unionKeys_iff a b k).not.mp hm
      push_neg at hab
      have ha : a.get k = 0 := qty_get_eq_zero_of_not_mem_keys hab.1
      have hb : b.get k = 0 := qty_get_eq_zero_of_not_mem_keys hab.2
      simp only [hm, if_false]
      show a.get k = (U64 + a.get k - b.get k) % U64
      simp [ha, hb]

/-! ## Deterministic state engine (`shared/src/lib.rs`)

The engine is polymorphic over the simulation types: `σ` is the domain
`State`, `U`/`D` the `UserId`/`UserData` types, `SE`/`CE` the server and
client event types. `Seed` and `Checksum` are `[u8; 32]` in the source;
the claims only pass seeds through and compare checksums for equality, so
they are embedded as type parameters `Sd` and `C` (with decidable
equality for `C`). The client-supplied `State::update(rng, event,
user_data)` is the parameter `upd`; the ChaCha8 RNG is deterministic in
the seed, so the rng argument is represented by the seed itself. The
SHA-256-of-msgpack `StateWrapper::checksum` is the parameter `chk`. -/

/-- Rust `Event<S>`: a server-originated event or a client event paired with the
issuing user's id. -/
inductive GEvent (SE CE U : Type) where
  | serverEvent : SE → GEvent SE CE U
  | clientEvent : CE → U → GEvent SE CE U
deriving DecidableEq

/-- Rust `EventData<S> { event, seed, state_checksum }`. -/
structure EventDataM (SE CE U C Sd : Type) where
  event : GEvent SE CE U
  seed : Sd
  state_checksum : C
deriving DecidableEq

/-- Rust `StateWrapper<S> { state, users }`; `users` is the `CustomMap` from
user id to user data, embedded as an association list. -/
structure StateWrapperM (σ U D : Type) where
  state : σ
  users : List (U × D)
deriving DecidableEq

/-- Rust `engine_shared::Error` (the variant relevant to the update law). -/
inductive EngineError where
  | invalidChecksum
deriving DecidableEq

/-- Rust `StateWrapper::update_checked`: recompute the checksum of the current
wrapper; on mismatch with `EventData.state_checksum` return
`Err(InvalidChecksum)` before touching the state; otherwise look up the
issuing user's data (`None` for server events) and run `State::update`.
The source mutates `self`; the embedding returns the post-call wrapper
together with the `Result`. -/
def update_checked {σ U D SE CE C Sd : Type} [DecidableEq U] [DecidableEq C]
    (chk : StateWrapperM σ U D → C) (upd : σ → Sd → GEvent SE CE U → Option D → σ)
    (w : StateWrapperM σ U D) (d : EventDataM SE CE U C Sd) :
    StateWrapperM σ U D × Except EngineError Unit :=
  let checksum := chk w
  if checksum ≠ d.state_checksum then
    (w, Except.error EngineError.invalidChecksum)
  else
    let user_id : Option U :=
      match d.event with
      | GEvent.clientEvent _ uid => some uid
      | _ => none
    ({ w with
        state := upd w.state d.seed d.event
          (user_id.bind (fun uid => alookup w.users uid)) },
     Except.ok ())

/-- The user-data argument that `update_checked` feeds to `State::update`:
the wrapper's entry for the issuing user of a client event, `None` for a
server event. -/
def issuerData {σ U D SE CE : Type} [DecidableEq U]
    (w : StateWrapperM σ U D) (e : GEvent SE CE U) : Option D :=
  match e with
  | GEvent.clientEvent _ uid => alookup w.users uid
  | GEvent.serverEvent _ => none

/-! ## Client reconciliation (`client/src/lib.rs`) -/

/-- Rust `SyncData<S> { user_id, state }`. -/
structure SyncDataM (σ U D : Type) where
  user_id : U
  state : StateWrapperM σ U D
deriving DecidableEq

/-- Rust `Req<S>`: the wire-level request union. -/
inductive ReqM (CE : Type) where
  | event : CE → ReqM CE
  | sync : ReqM CE
deriving DecidableEq

/-- Rust `Res<S>`: the wire-level response union. -/
inductive ResM (σ U D SE CE C Sd : Type) where
  | sync : SyncDataM σ U D → ResM σ U D SE CE C Sd
  | event : EventDataM SE CE U C Sd → ResM σ U D SE CE C Sd
  | userUpdate : List (U × D) → ResM σ U D SE CE C Sd
deriving DecidableEq

/-- The state-relevant part of `ClientState<S>`: the local mirror
`state: Option<SyncData<S>>`, absent until the first `Res::Sync`. -/
structure ClientStateM (σ U D : Type) where
  state : Option (SyncDataM σ U D)
deriving DecidableEq

/-- The state-relevant arms of the client `EventWrapper` message union. -/
inductive EventWrapperM (σ U D SE CE C Sd : Type) where
  | sendGameEvent : CE → EventWrapperM σ U D SE CE C Sd
  | receiveGameEvent : EventDataM SE CE U C Sd → EventWrapperM σ U D SE CE C Sd
  | initGameState : SyncDataM σ U D → EventWrapperM σ U D SE CE C Sd
  | userUpdate : List (U × D) → EventWrapperM σ U D SE CE C Sd

/-- Rust `ClientState::update`, restricted to the message arms that touch the
mirrored state. It returns the new client state together with the list of
requests sent over the socket during the call. `ReceiveGameEvent` applies
the event to the mirror with the shared `update_checked`; if that fails,
the client sends `Req::Sync`. A missing mirror drops the event. -/
def client_update {σ U D SE CE C Sd : Type} [DecidableEq U] [DecidableEq C]
    (chk : StateWrapperM σ U D → C) (upd : σ → Sd → GEvent SE CE U → Option D → σ)
    (cs : ClientStateM σ U D) (msg : EventWrapperM σ U D SE CE C Sd) :
    ClientStateM σ U D × List (ReqM CE) :=
  match msg with
  | EventWrapperM.sendGameEvent e => (cs, [ReqM.event e])
  | EventWrapperM.initGameState sd => ({ state := some sd }, [])
  | EventWrapperM.receiveGameEvent d =>
    match cs.state with
    | none => (cs, [])
    | some sd =>
      match update_checked chk upd sd.state d with
      | (w1, Except.error _) => ({ state := some { sd with state := w1 } }, [ReqM.sync])
      | (w1, Except.ok _) => ({ state := some { sd with state := w1 } }, [])
  | EventWrapperM.userUpdate m =>
    match cs.state with
    | none => (cs, [])
    | some sd => ({ state := some { sd with state := { sd.state with users := m } } }, [])

/-! ## Connection protocol (`server/src/lib.rs`) -/

/-- The outcome of `broadcast::Receiver::recv` as observed by `poll`. -/
inductive RecvResult (α : Type) where
  | ok : α → RecvResult α
  | lagged : Nat → RecvResult α
  | closed : RecvResult α

/-- The wake source that wins the three-way `tokio::select!` race in
`ClientConnectionRes::poll`: an explicit sync request, a user-data refresh
notification, or the next broadcast reception. -/
inductive WakeSource (σ U D SE CE C Sd : Type) where
  | syncRequested : WakeSource σ U D SE CE C Sd
  | userDataUpdated : WakeSource σ U D SE CE C Sd
  | broadcast : RecvResult (ResM σ U D SE CE C Sd) → WakeSource σ U D SE CE C Sd

/-- Rust `ClientConnectionRes::poll`: `uid` is the connection's own user id and
`w` the shared game state read under the lock at that moment; `src` says
which of the three raced wake sources fired. Returning `none` means the
response stream ends. -/
def poll {σ U D SE CE C Sd : Type} (uid : U) (w : StateWrapperM σ U D)
    (src : WakeSource σ U D SE CE C Sd) : Option (ResM σ U D SE CE C Sd) :=
  match src with
  | WakeSource.syncRequested => some (ResM.sync ⟨uid, w⟩)
  | WakeSource.userDataUpdated => some (ResM.userUpdate w.users)
  | WakeSource.broadcast r =>
    match r with
    | RecvResult.ok res => some res
    | RecvResult.lagged _ => some (ResM.sync ⟨uid, w⟩)
    | RecvResult.closed => none

/-! ## Concrete instantiations used by witnesses and counterexamples -/

/-- A concrete checksum function over `Nat`-typed wrappers. -/
def chkW : StateWrapperM Nat Nat Nat → Nat := fun w => w.state

/-- A concrete domain update function over `Nat`-typed wrappers. -/
def updW : Nat → Nat → GEvent Nat Nat Nat → Option Nat → Nat := fun s _ _ _ => s + 1

/-- A concrete wrapper with state `0` and no users. -/
def w0 : StateWrapperM Nat Nat Nat := ⟨0, []⟩

/-- An event datum whose checksum `1` mismatches `chkW w0 = 0`. -/
def dBad : EventDataM Nat Nat Nat Nat Nat := ⟨GEvent.serverEvent 0, 0, 1⟩

/-- An event datum whose checksum `0` matches `chkW w0 = 0`. -/
def dGood : EventDataM Nat Nat Nat Nat Nat := ⟨GEvent.serverEvent 0, 0, 0⟩

/-- A concrete mirrored sync datum for the client claims. -/
def sd0 : SyncDataM Nat Nat Nat := ⟨7, w0⟩

/-- A recording state: the domain state stores the list of user-data
values the last `update` invocation received. -/
def upd2 : List Nat → Nat → GEvent Nat Nat Nat → Option Nat → List Nat :=
  fun _ _ _ od => od.toList

/-- A constant checksum function, so the gate always passes. -/
def chk2 : StateWrapperM (List Nat) Nat Nat → Nat := fun _ => 0

/-- A wrapper holding two users, `1 ↦ 11` and `2 ↦ 22`. -/
def w2 : StateWrapperM (List Nat) Nat Nat := ⟨[], [(1, 11), (2, 22)]⟩

/-- A client event issued by user `1`, with a matching checksum. -/
def d2 : EventDataM Nat Nat Nat Nat Nat := ⟨GEvent.clientEvent 5 1, 0, 0⟩

/-- C1: `update_checked` fails with `InvalidChecksum` iff the recomputed
checksum of the wrapper differs from `EventData.state_checksum`; in the
error case the wrapper is unchanged, and on a match it succeeds with
`Ok`. -/
theorem c1_update_checked_gate {σ U D SE CE C Sd : Type} [DecidableEq U] [DecidableEq C]
    (chk : StateWrapperM σ U D → C) (upd : σ → Sd → GEvent SE CE U → Option D → σ)
    (w : StateWrapperM σ U D) (d : EventDataM SE CE U C Sd) :
    ((update_checked chk upd w d).2 = Except.error EngineError.invalidChecksum
        ↔ chk w ≠ d.state_checksum)
      ∧ (chk w ≠ d.state_checksum → (update_checked chk upd w d).1 = w)
      ∧ (chk w = d.state_checksum → (update_checked chk upd w d).2 = Except.ok ()) := by
  unfold update_checked
  by_cases h : chk w ≠ d.state_checksum <;> simp [h]

theorem c1_witness :
    (update_checked chkW updW w0 dBad).1 = w0
      ∧ (update_checked chkW updW w0 dGood).2 = Except.ok () :=
  ⟨(c1_update_checked_gate chkW updW w0 dBad).2.1 (by decide),
   (c1_update_checked_gate chkW updW w0 dGood).2.2 (by decide)⟩

/-- C2 counterexample: rendered over an `update` function that records the
user data it receives verbatim, the claim "update is invoked with the full
`UserId`-to-`UserData` map" requires every user's data value to reach the
invocation; but for a client event issued by user `1` against a wrapper
holding users `1 ↦ 11` and `2 ↦ 22` (checksums matching), the invocation
records only `[11]` — the source passes `Option<&UserData>`, the issuing
user's entry alone, not the map. -/
theorem c2_counterexample :
    chk2 w2 = d2.state_checksum
      ∧ (update_checked chk2 upd2 w2 d2).1.state = [11]
      ∧ ¬ (∀ x ∈ w2.users.map Prod.snd, x ∈ (update_checked chk2 upd2 w2 d2).1.state) := by
  refine ⟨rfl, by decide, ?_⟩
  intro h
  exact absurd (h 22 (by decide)) (by decide)

/-- C2 (amended): whenever `update_checked` passes its checksum gate, it
invokes `State::update` with the deterministic RNG seed from
`EventData.seed`, the event, and the user-data entry of the issuing user
looked up in the wrapper's map (`None` for server events) — not the full
map — and succeeds. -/
theorem c2_update_checked_args {σ U D SE CE C Sd : Type} [DecidableEq U] [DecidableEq C]
    (chk : StateWrapperM σ U D → C) (upd : σ → Sd → GEvent SE CE U → Option D → σ)
    (w : StateWrapperM σ U D) (d : EventDataM SE CE U C Sd)
    (h : chk w = d.state_checksum) :
    update_checked chk upd w d
      = ({ w with state := upd w.state d.seed d.event (issuerData w d.event) },
         Except.ok ()) := by
  unfold update_checked issuerData
  cases hev : d.event <;> simp [h, hev]

theorem c2_witness :
    update_checked chkW updW w0 dGood
      = ({ w0 with state := updW w0.state dGood.seed dGood.event (issuerData w0 dGood.event) },
         Except.ok ()) :=
  c2_update_checked_args chkW updW w0 dGood rfl

/-- C3: with the local mirror present, a received `Res::Event` whose
checksum mismatches the mirror leaves the client state unchanged and sends
exactly one `Req::Sync`; on a checksum match the event is applied to the
mirror through the same shared `update_checked` and nothing is sent. -/
theorem c3_client_receive_event {σ U D SE CE C Sd : Type} [DecidableEq U] [DecidableEq C]
    (chk : StateWrapperM σ U D → C) (upd : σ → Sd → GEvent SE CE U → Option D → σ)
    (cs : ClientStateM σ U D) (sd : SyncDataM σ U D) (d : EventDataM SE CE U C Sd)
    (h : cs.state = some sd) :
    (chk sd.state ≠ d.state_checksum →
        client_update chk upd cs (EventWrapperM.receiveGameEvent d) = (cs, [ReqM.sync]))
      ∧ (chk sd.state = d.state_checksum →
        client_update chk upd cs (EventWrapperM.receiveGameEvent d)
          = (⟨some { sd with state := (update_checked chk upd sd.state d).1 }⟩, [])) := by
  have hcs : cs = ⟨some sd⟩ := by
    cases cs
    simpa using h
  subst hcs
  constructor
  · intro hne
    have hupd : update_checked chk upd sd.state d
        = (sd.state, Except.error EngineError.invalidChecksum) := by
      unfold update_checked
      simp [hne]
    simp [client_update, hupd]
  · intro heq
    have hupd := c2_update_checked_args chk upd sd.state d heq
    simp [client_update, hupd]

theorem c3_witness :
    client_update chkW updW (⟨some sd0⟩ : ClientStateM Nat Nat Nat)
        (EventWrapperM.receiveGameEvent dBad) = (⟨some sd0⟩, [ReqM.sync]) :=
  (c3_client_receive_event chkW updW ⟨some sd0⟩ sd0 dBad rfl).1 (by decide)

/-- C4: when the broadcast receiver reports it lagged, `poll` substitutes a
full `Res::Sync` of the current shared state tagged with the connection's
own user id; when the broadcast sender is gone the stream ends with
`None`; a normally received message is forwarded as-is. -/
theorem c4_poll_lagged_closed {σ U D SE CE C Sd : Type} (uid : U) (w : StateWrapperM σ U D)
    (n : Nat) (res : ResM σ U D SE CE C Sd) :
    poll uid w (WakeSource.broadcast (RecvResult.lagged n : RecvResult (ResM σ U D SE CE C Sd)))
        = some (ResM.sync ⟨uid, w⟩)
      ∧ poll uid w (WakeSource.broadcast (RecvResult.closed : RecvResult (ResM σ U D SE CE C Sd)))
          = none
      ∧ poll uid w (WakeSource.broadcast (RecvResult.ok res)) = some res :=
  ⟨rfl, rfl, rfl⟩

/-- C10: with no local mirror yet (no `Res::Sync` received), a received
`Res::Event` is silently dropped: the client state is unchanged and no
request is sent. -/
theorem c10_client_drop_event_without_mirror {σ U D SE CE C Sd : Type}
    [DecidableEq U] [DecidableEq C]
    (chk : StateWrapperM σ U D → C) (upd : σ → Sd → GEvent SE CE U → Option D → σ)
    (cs : ClientStateM σ U D) (d : EventDataM SE CE U C Sd)
    (h : cs.state = none) :
    client_update chk upd cs (EventWrapperM.receiveGameEvent d) = (cs, []) := by
  have hcs : cs = ⟨none⟩ := by
    cases cs
    simpa using h
  subst hcs
  simp [client_update]

theorem c10_witness :
    client_update chkW updW (⟨none⟩ : ClientStateM Nat Nat Nat)
        (EventWrapperM.receiveGameEvent dBad) = (⟨none⟩, []) :=
  c10_client_drop_event_without_mirror chkW updW ⟨none⟩ dBad rfl

/-! ## Entity reference store (`shared/src/utils/entity_set.rs`)

`EntityRef<T>` wraps a freshly drawn `Uuid` (128 random bits): identities
are globally unique and never reused once minted. The embedding represents
an identity as a `Nat` and makes the global uuid source explicit as a
`fresh` counter carried by the set: `EntityRef::new()` yields the current
`fresh` value, and every identity minted so far is `< fresh`, which is the
never-reused guarantee. `CustomMap`/`CustomSet` wrap `IndexMap`/`IndexSet`
(insertion-ordered); the entity list is kept in iteration order. -/

/-- An `EntityRef<T>` identity. -/
abbrev ERef := Nat

/-- Rust `EntitySet<T> { entities: CustomMap<EntityRef<T>, T> }`, together with
the state of the global uuid source (see the section comment). -/
structure EntitySet (T : Type) where
  entities : List (ERef × T)
  fresh : ERef

/-- Rust `EntitySet::default()`: empty map (and a fresh uuid source). -/
def EntitySet.emptyE (T : Type) : EntitySet T := ⟨[], 0⟩

/-- Rust `EntitySet::insert`: mint a fresh identity with `EntityRef::new()` and
store the value under it; `IndexMap::insert` of a new key appends at the
end. Returns the updated set and the minted reference. -/
def EntitySet.insertE {T : Type} (s : EntitySet T) (v : T) : EntitySet T × ERef :=
  (⟨s.entities ++ [(s.fresh, v)], s.fresh + 1⟩, s.fresh)

/-- Rust `EntitySet::get`. -/
def EntitySet.getE {T : Type} (s : EntitySet T) (r : ERef) : Option T :=
  alookup s.entities r

/-- Rust `IndexMap::swap_remove` at position `i`: the removed slot is filled
with the last entry, which is then popped from the end. -/
def swapRemoveAt {α : Type} (l : List α) (i : Nat) : List α :=
  match l.getLast? with
  | none => l
  | some last => (l.set i last).dropLast

/-- Rust `EntitySet::remove`: `self.entities.swap_remove(entity_ref)`. -/
def EntitySet.removeE {T : Type} (s : EntitySet T) (r : ERef) : EntitySet T × Option T :=
  match s.entities.findIdx? (fun p => p.1 == r) with
  | none => (s, none)
  | some i => (⟨swapRemoveAt s.entities i, s.fresh⟩, (s.entities.get? i).map Prod.snd)

/-- Rust `CustomSet::contains` (`IndexSet::contains`) on the list embedding. -/
def containsR (l : List ERef) (r : ERef) : Bool :=
  decide (r ∈ l)

/-- Rust `CustomSet::insert` (`IndexSet::insert`): append the element at the
end when absent, leave the set unchanged when present. -/
def insertS (l : List ERef) (r : ERef) : List ERef :=
  if containsR l r then l else l ++ [r]

/-- Rust `EntitySet::for_each_mut`: first pass over the whole entity slice,
mutating every value with `f` and collecting the references whose callback
returned `true` into `to_remove`; then a single `retain` drops exactly the
collected references (order-preserving). `f` is embedded as a pure
`value ↦ (mutated value, remove flag)` function. -/
def EntitySet.for_each_mut {T : Type} (s : EntitySet T) (f : T → T × Bool) : EntitySet T :=
  let pass := s.entities.map (fun p => (p.1, f p.2))
  let to_remove := pass.foldl (fun acc p => if p.2.2 then insertS acc p.1 else acc) []
  ⟨(pass.map (fun p => (p.1, p.2.1))).filter (fun p => !(containsR to_remove p.1)), s.fresh⟩

/-- Rust `EntityRefSet<T> { entities: CustomSet<EntityRef<T>> }`. -/
structure EntityRefSet (T : Type) where
  refs : List ERef

/-- Rust `EntityRefSet::insert`. -/
def EntityRefSet.insertR {T : Type} (s : EntityRefSet T) (r : ERef) : EntityRefSet T :=
  ⟨insertS s.refs r⟩

/-- Write `v` over the value stored under key `r`, in place
(`*self.entities.get_mut(&r) = v`). -/
def updateVal {T : Type} : List (ERef × T) → ERef → T → List (ERef × T)
  | [], _, _ => []
  | p :: rest, r, v => if p.1 = r then (p.1, v) :: rest else p :: updateVal rest r v

/-- One iteration of the `for_each_in_mut` loop over the index: if the
reference resolves in the owning store, mutate the value with `f` and
collect the reference when the callback flags it; references that do not
resolve are collected unconditionally. -/
def fimStep {T : Type} (f : T → T × Bool) (acc : List (ERef × T) × List ERef) (r : ERef) :
    List (ERef × T) × List ERef :=
  match alookup acc.1 r with
  | some v => (updateVal acc.1 r (f v).1, if (f v).2 then insertS acc.2 r else acc.2)
  | none => (acc.1, insertS acc.2 r)

/-- Rust `EntitySet::for_each_in_mut`: iterate over the caller-supplied
`EntityRefSet`, mutating/flagging through `fimStep`, then `retain` on the
owning store and on the index, dropping the collected references from
both. -/
def EntitySet.for_each_in_mut {T : Type} (s : EntitySet T) (idx : EntityRefSet T)
    (f : T → T × Bool) : EntitySet T × EntityRefSet T :=
  let pass := idx.refs.foldl (fimStep f) (s.entities, [])
  (⟨pass.1.filter (fun p => !(containsR pass.2 p.1)), s.fresh⟩,
   ⟨idx.refs.filter (fun r => !(containsR pass.2 r))⟩)

/-- The references in iteration order (`iter` / `IntoIterator`). -/
def iterRefs {T : Type} (s : EntitySet T) : List ERef :=
  s.entities.map Prod.fst

/-- Iteration visits the remaining entities in the order they were
inserted: identities are minted in strictly increasing order, so this says
the key sequence is strictly increasing. -/
def InsertionOrdered {T : Type} (s : EntitySet T) : Prop :=
  List.Pairwise (· < ·) (iterRefs s)

/-- Well-formedness maintained by the store: keys are distinct (`IndexMap`)
and every minted key is below the uuid-source counter. -/
def EntitySet.WF {T : Type} (s : EntitySet T) : Prop :=
  (s.entities.map Prod.fst).Nodup ∧ ∀ p ∈ s.entities, p.1 < s.fresh

/-- A sequence of later insertions. -/
def EntitySet.insertMany {T : Type} (s : EntitySet T) (vs : List T) : EntitySet T :=
  vs.foldl (fun a v => (a.insertE v).1) s

theorem alookup_filter_key {K V : Type} [DecidableEq K] (l : List (K × V)) (q : K → Bool)
    (k : K) :
    alookup (l.filter (fun p => q p.1)) k = if q k then alookup l k else none := by
  induction l with
  | nil => simp [alookup]
  | cons p rest ih =>
    by_cases hq : q p.1
    · by_cases hk : p.1 = k
      · subst hk
        simp [List.filter_cons, hq, alookup]
      · simp [List.filter_cons, hq, alookup, hk, ih]
    · by_cases hk : p.1 = k
      · subst hk
        simp only [List.filter_cons, hq]
        simp only [Bool.false_eq_true, if_false]
        rw [ih]
        simp [hq]
      · simp [List.filter_cons, hq, alookup, hk, ih]

theorem alookup_map_val {K V W : Type} [DecidableEq K] (l : List (K × V)) (g : K → V → W)
    (k : K) :
    alookup (l.map (fun p => (p.1, g p.1 p.2))) k = (alookup l k).map (g k) := by
  induction l with
  | nil => simp [alookup]
  | cons p rest ih =>
    by_cases hk : p.1 = k
    · subst hk
      simp [alookup]
    · simp [alookup, hk, ih]

theorem mem_insertS (l : List ERef) (r x : ERef) : x ∈ insertS l r ↔ x ∈ l ∨ x = r := by
  unfold insertS containsR
  by_cases h : r ∈ l
  · rw [if_pos (by simpa using h)]
    constructor
    · exact Or.inl
    · rintro (hx | hx)
      · exact hx
      · exact hx ▸ h
  · rw [if_neg (by simpa using h)]
    simp [List.mem_append]

theorem mem_foldl_removeFlags {T : Type} (pass : List (ERef × (T × Bool))) (init : List ERef)
    (x : ERef) :
    x ∈ pass.foldl (fun acc p => if p.2.2 then insertS acc p.1 else acc) init
      ↔ x ∈ init ∨ ∃ p ∈ pass, p.2.2 = true ∧ p.1 = x := by
  induction pass generalizing init with
  | nil => simp
  | cons p rest ih =>
    simp only [List.foldl_cons]
    by_cases hf : p.2.2
    · rw [if_pos hf, ih, mem_insertS]
      constructor
      · rintro ((hx | hx) | hx)
        · exact Or.inl hx
        · exact Or.inr ⟨p, List.mem_cons_self p rest, hf, hx.symm⟩
        · rcases hx with ⟨q, hq, hflag, hkey⟩
          exact Or.inr ⟨q, List.mem_cons_of_mem _ hq, hflag, hkey⟩
      · rintro (hx | ⟨q, hq, hflag, hkey⟩)
        · exact Or.inl (Or.inl hx)
        · rcases List.mem_cons.mp hq with hq1 | hq1
          · exact Or.inl (Or.inr (hq1 ▸ hkey).symm)
          · exact Or.inr ⟨q, hq1, hflag, hkey⟩
    · rw [if_neg hf, ih]
      constructor
      · rintro (hx | ⟨q, hq, hflag, hkey⟩)
        · exact Or.inl hx
        · exact Or.inr ⟨q, List.mem_cons_of_mem _ hq, hflag, hkey⟩
      · rintro (hx | ⟨q, hq, hflag, hkey⟩)
        · exact Or.inl hx
        · rcases List.mem_cons.mp hq with hq1 | hq1
          · exact absurd (hq1 ▸ hflag) hf
          · exact Or.inr ⟨q, hq1, hflag, hkey⟩

theorem updateVal_keys {T : Type} (l : List (ERef × T)) (r : ERef) (v : T) :
    (updateVal l r v).map Prod.fst = l.map Prod.fst := by
  induction l with
  | nil => simp [updateVal]
  | cons p rest ih =>
    by_cases h : p.1 = r <;> simp [updateVal, h, ih]

theorem updateVal_lookup_self {T : Type} (l : List (ERef × T)) (r : ERef) (v v0 : T)
    (h : alookup l r = some v0) : alookup (updateVal l r v) r = some v := by
  induction l with
  | nil => simp [alookup] at h
  | cons p rest ih =>
    by_cases hp : p.1 = r
    · simp [updateVal, alookup, hp]
    · simp only [alookup_cons, hp, if_false] at h
      simp [updateVal, alookup, hp, ih h]

theorem updateVal_lookup_other {T : Type} (l : List (ERef × T)) (r k : ERef) (v : T)
    (hne : k ≠ r) : alookup (updateVal l r v) k = alookup l k := by
  induction l with
  | nil => simp [updateVal]
  | cons p rest ih =>
    by_cases hp : p.1 = r
    · subst hp
      have : p.1 ≠ k := fun hc => hne hc.symm
      simp [updateVal, alookup, this]
    · by_cases hk : p.1 = k <;> simp [updateVal, alookup, hp, hk, hne, ih]

theorem length_filter_not {α : Type} (l : List α) (p : α → Bool) :
    (l.filter (fun a => !(p a))).length = l.length - (l.filter p).length := by
  induction l with
  | nil => rfl
  | cons a rest ih =>
    have hle : (rest.filter p).length ≤ rest.length := List.length_filter_le p rest
    cases hpa : p a <;> simp [List.filter_cons, hpa, ih] <;> omega

theorem mem_forEachMut_toRemove {T : Type} (s : EntitySet T) (f : T → T × Bool)
    (hnd : (s.entities.map Prod.fst).Nodup) (r : ERef) (v : T)
    (hv : alookup s.entities r = some v) :
    (r ∈ (s.entities.map (fun p => (p.1, f p.2))).foldl
        (fun acc p => if p.2.2 then insertS acc p.1 else acc) [])
      ↔ (f v).2 = true := by
  rw [mem_foldl_removeFlags]
  simp only [List.not_mem_nil, false_or]
  constructor
  · rintro ⟨p, hp, hflag, hkey⟩
    rcases List.mem_map.mp hp with ⟨q, hq, hqe⟩
    have hq1 : q.1 = r := by
      have := congrArg Prod.fst hqe
      simpa [hkey] using this
    have hq2 : alookup s.entities r = some q.2 :=
      alookup_eq_some_of_mem_nodup hnd (by
        have : q = (r, q.2) := by
          cases q
          simpa using hq1
        exact this ▸ hq)
    have hv2 : q.2 = v := by
      have := hq2.symm.trans hv
      simpa using this
    have hpf : f q.2 = p.2 := by
      have := congrArg Prod.snd hqe
      simpa using this
    rw [← hv2, hpf]
    exact hflag
  · intro hflag
    refine ⟨(r, f v), List.mem_map.mpr ⟨(r, v), mem_of_alookup_eq_some hv, rfl⟩, hflag, rfl⟩

theorem containsR_eq_true_iff (l : List ERef) (r : ERef) : containsR l r = true ↔ r ∈ l := by
  simp [containsR]

theorem containsR_eq_false_iff (l : List ERef) (r : ERef) : containsR l r = false ↔ r ∉ l := by
  simp [containsR]

theorem alookup_filter_not_contains {V : Type} (l : List (ERef × V)) (tR : List ERef)
    (k : ERef) :
    alookup (l.filter (fun p => !(containsR tR p.1))) k
      = if k ∈ tR then none else alookup l k := by
  induction l with
  | nil => simp [alookup]
  | cons p rest ih =>
    simp only [List.filter_cons]
    by_cases hmem : p.1 ∈ tR
    · have hc : (!(containsR tR p.1)) = false := by simp [containsR, hmem]
      rw [hc]
      simp only [Bool.false_eq_true, if_false]
      rw [ih]
      by_cases hk : p.1 = k
      · subst hk
        simp [hmem]
      · simp [alookup, hk]
    · have hc : (!(containsR tR p.1)) = true := by simp [containsR, hmem]
      rw [hc]
      simp only [if_true]
      by_cases hk : p.1 = k
      · subst hk
        simp [alookup, hmem]
      · simp [alookup, hk, ih]

theorem alookup_double_map {T : Type} (l : List (ERef × T)) (f : T → T × Bool) (k : ERef) :
    alookup ((l.map (fun p => (p.1, f p.2))).map (fun p => (p.1, p.2.1))) k
      = (alookup l k).map (fun v => (f v).1) := by
  induction l with
  | nil => simp [alookup]
  | cons p rest ih =>
    simp only [List.map_cons, alookup_cons]
    by_cases hk : p.1 = k
    · subst hk
      simp
    · simp only [hk, if_false]
      exact ih

theorem forEachMut_getE {T : Type} (s : EntitySet T) (f : T → T × Bool)
    (hnd : (s.entities.map Prod.fst).Nodup) (r : ERef) :
    (s.for_each_mut f).getE r
      = match alookup s.entities r with
        | none => none
        | some v => if (f v).2 then none else some (f v).1 := by
  unfold EntitySet.for_each_mut EntitySet.getE
  simp only
  rw [alookup_filter_not_contains, alookup_double_map]
  cases hv : alookup s.entities r with
  | none =>
    have hnr : r ∉ (s.entities.map (fun p => (p.1, f p.2))).foldl
        (fun acc p => if p.2.2 then insertS acc p.1 else acc) [] := by
      rw [mem_foldl_removeFlags]
      rintro (hx | ⟨p, hp, hflag, hkey⟩)
      · exact List.not_mem_nil r hx
      · rcases List.mem_map.mp hp with ⟨q, hq, hqe⟩
        have hq1 : q.1 = r := by
          have := congrArg Prod.fst hqe
          simpa [hkey] using this
        have := alookup_isSome_of_mem hq
        rw [hq1, hv] at this
        simp at this
    simp [hnr]
  | some v =>
    by_cases hflag : (f v).2
    · have hr : r ∈ (s.entities.map (fun p => (p.1, f p.2))).foldl
          (fun acc p => if p.2.2 then insertS acc p.1 else acc) [] :=
        (mem_forEachMut_toRemove s f hnd r v hv).mpr hflag
      simp [hr, hflag]
    · have hnr : r ∉ (s.entities.map (fun p => (p.1, f p.2))).foldl
          (fun acc p => if p.2.2 then insertS acc p.1 else acc) [] := by
        intro hc
        exact hflag ((mem_forEachMut_toRemove s f hnd r v hv).mp hc)
      simp [hnr, hflag]

theorem length_filter_double_map {T : Type} (l : List (ERef × T)) (f : T → T × Bool)
    (tR : List ERef) (hpt : ∀ p ∈ l, containsR tR p.1 = (f p.2).2) :
    (((l.map (fun p => (p.1, f p.2))).map (fun p => (p.1, p.2.1))).filter
        (fun p => !(containsR tR p.1))).length
      = (l.filter (fun p => !((fun p => (f p.2).2) p))).length := by
  induction l with
  | nil => rfl
  | cons p rest ih =>
    have hp := hpt p (List.mem_cons_self p rest)
    have ihr := ih (fun q hq => hpt q (List.mem_cons_of_mem p hq))
    simp only [List.map_cons, List.filter_cons]
    cases hf : (f p.2).2
    · have hc : containsR tR p.1 = false := hp.trans hf
      simp only [hc, hf, Bool.not_false, if_true, List.length_cons]
      rw [ihr]
    · have hc : containsR tR p.1 = true := hp.trans hf
      simp only [hc, hf, Bool.not_true, Bool.false_eq_true, if_false]
      exact ihr

theorem forEachMut_length {T : Type} (s : EntitySet T) (f : T → T × Bool)
    (hnd : (s.entities.map Prod.fst).Nodup) :
    (s.for_each_mut f).entities.length
      = s.entities.length - (s.entities.filter (fun p => (f p.2).2)).length := by
  unfold EntitySet.for_each_mut
  simp only
  rw [length_filter_double_map s.entities f _ ?hpt]
  case hpt =>
    intro p hp
    have hv : alookup s.entities p.1 = some p.2 :=
      alookup_eq_some_of_mem_nodup hnd (by
        cases p
        exact hp)
    by_cases hflag : (f p.2).2
    · rw [hflag]
      exact (containsR_eq_true_iff _ _).mpr
        ((mem_forEachMut_toRemove s f hnd p.1 p.2 hv).mpr hflag)
    · have hf2 : (f p.2).2 = false := by
        cases hb : (f p.2).2
        · rfl
        · exact absurd hb hflag
      rw [hf2]
      exact (containsR_eq_false_iff _ _).mpr (fun hc =>
        hflag ((mem_forEachMut_toRemove s f hnd p.1 p.2 hv).mp hc))
  exact length_filter_not s.entities (fun p => (f p.2).2)

theorem getE_insertMany_none {T : Type} (vs : List T) (s : EntitySet T) (r : ERef)
    (hr : r < s.fresh) (hnone : s.getE r = none) :
    (s.insertMany vs).getE r = none := by
  induction vs generalizing s with
  | nil => exact hnone
  | cons w rest ih =>
    have h1 : s.insertMany (w :: rest) = (s.insertE w).1.insertMany rest := rfl
    rw [h1]
    apply ih
    · show r < s.fresh + 1
      exact Nat.lt_succ_of_lt hr
    · show alookup (s.entities ++ [(s.fresh, w)]) r = none
      rw [alookup_append]
      have h2 : alookup s.entities r = none := hnone
      rw [h2]
      have hne : s.fresh ≠ r := Nat.ne_of_gt hr
      simp [alookup, hne]

/-- A concrete store holding values `10, 20, 30` under the references
`0, 1, 2` minted in that order. -/
def cexSet : EntitySet Nat :=
  ((((EntitySet.emptyE Nat).insertE 10).1.insertE 20).1.insertE 30).1

/-- A concrete callback: increments every visited value and flags the
value `20` for removal. -/
def cexF : Nat → Nat × Bool := fun x => (x + 1, decide (x = 20))

/-- C5: `for_each_mut` visits every stored value (each value's image under
the callback determines its fate, including flagged ones), removes exactly
the entities whose callback returned `true` only after the full pass
(leaving `N - removed` entities), keeps every surviving reference
resolving to its mutated value, and a removed reference never resolves
again, even after arbitrarily many later insertions. -/
theorem c5_for_each_mut_spec {T : Type} (s : EntitySet T) (f : T → T × Bool) (hwf : s.WF) :
    ((s.for_each_mut f).entities.length
        = s.entities.length - (s.entities.filter (fun p => (f p.2).2)).length)
      ∧ ∀ r v, s.getE r = some v →
          ((f v).2 = false → (s.for_each_mut f).getE r = some (f v).1)
            ∧ ((f v).2 = true →
                ∀ ws, ((s.for_each_mut f).insertMany ws).getE r = none) := by
  refine ⟨forEachMut_length s f hwf.1, ?_⟩
  intro r v hv
  have hchar := forEachMut_getE s f hwf.1 r
  have hv2 : alookup s.entities r = some v := hv
  rw [hv2] at hchar
  constructor
  · intro hfalse
    rw [hchar]
    simp [hfalse]
  · intro htrue ws
    apply getE_insertMany_none
    · show r < s.fresh
      exact hwf.2 (r, v) (mem_of_alookup_eq_some hv2)
    · rw [hchar]
      simp [htrue]

theorem c5_witness :
    ((cexSet.for_each_mut cexF).insertMany [35]).getE 1 = none :=
  (((c5_for_each_mut_spec cexSet cexF
      (by unfold EntitySet.WF; decide)).2 1 20 (by decide)).2 (by decide)) [35]

/-- C7 counterexample: after inserting `10, 20, 30` (references `0, 1, 2`)
and removing reference `0`, the swap-remove moves the last entity into the
removed slot: iteration yields references `[2, 1]`, not the insertion
order `[1, 2]` of the remaining entities. -/
theorem c7_counterexample :
    iterRefs cexSet = [0, 1, 2]
      ∧ (cexSet.removeE 0).1.entities = [(2, 30), (1, 20)]
      ∧ ¬ InsertionOrdered (cexSet.removeE 0).1 :=
  ⟨by decide, by decide, by unfold InsertionOrdered iterRefs; decide⟩

/-- C7 (amended): the store preserves insertion order under `insert` (new
identities go to the end) and under `for_each_mut` removals (an
order-preserving retain); but `remove` is a swap-remove, which fills the
removed slot with the last entity, so iteration order after removing a
non-final entity is not insertion order (see the counterexample). -/
theorem c7_insertion_order_amended {T : Type} (s : EntitySet T) (v : T) (f : T → T × Bool)
    (hwf : s.WF) (hord : InsertionOrdered s) :
    InsertionOrdered (s.insertE v).1 ∧ InsertionOrdered (s.for_each_mut f) := by
  constructor
  · show List.Pairwise (· < ·) ((s.entities ++ [(s.fresh, v)]).map Prod.fst)
    rw [List.map_append, List.pairwise_append]
    refine ⟨hord, List.pairwise_singleton _ _, ?_⟩
    intro a ha b hb
    have hb2 : b = s.fresh := by simpa using hb
    rcases List.mem_map.mp ha with ⟨p, hp, hpe⟩
    have hlt := hwf.2 p hp
    subst hb2
    rw [← hpe]
    exact hlt
  · have h1 : List.Sublist
        (((s.entities.map (fun p => (p.1, f p.2))).map (fun p => (p.1, p.2.1))).filter
          (fun p => !(containsR ((s.entities.map (fun p => (p.1, f p.2))).foldl
            (fun acc p => if p.2.2 then insertS acc p.1 else acc) []) p.1)))
        ((s.entities.map (fun p => (p.1, f p.2))).map (fun p => (p.1, p.2.1))) :=
      List.filter_sublist _
    have h2 := h1.map Prod.fst
    have h3 : ((s.entities.map (fun p => (p.1, f p.2))).map
        (fun p => (p.1, p.2.1))).map Prod.fst = s.entities.map Prod.fst := by
      simp [List.map_map, Function.comp]
    rw [h3] at h2
    exact hord.sublist h2

theorem c7_witness :
    InsertionOrdered (cexSet.insertE 40).1 ∧ InsertionOrdered (cexSet.for_each_mut cexF) :=
  c7_insertion_order_amended cexSet 40 cexF (by unfold EntitySet.WF; decide)
    (by unfold InsertionOrdered iterRefs; decide)

/-- Whether `for_each_in_mut` collects reference `r` into `to_remove` when
it visits it against the store `m`: flagged by the callback when `r`
resolves, collected unconditionally when it does not resolve. -/
def fimFlag {T : Type} (f : T → T × Bool) (m : List (ERef × T)) (r : ERef) : Bool :=
  match alookup m r with
  | some v => (f v).2
  | none => true

theorem fim_foldl_char {T : Type} (f : T → T × Bool) (rs : List ERef) :
    ∀ (m : List (ERef × T)) (acc : List ERef), rs.Nodup →
    ((rs.foldl (fimStep f) (m, acc)).1.map Prod.fst = m.map Prod.fst)
      ∧ (∀ k, alookup (rs.foldl (fimStep f) (m, acc)).1 k
          = if k ∈ rs then (alookup m k).map (fun v => (f v).1) else alookup m k)
      ∧ (∀ x, x ∈ (rs.foldl (fimStep f) (m, acc)).2
          ↔ x ∈ acc ∨ (x ∈ rs ∧ fimFlag f m x = true)) := by
  induction rs with
  | nil =>
    intro m acc _
    refine ⟨rfl, ?_, ?_⟩
    · intro k
      simp
    · intro x
      simp
  | cons r rest ih =>
    intro m acc hnd
    rw [List.nodup_cons] at hnd
    obtain ⟨hr_rest, hnd_rest⟩ := hnd
    rw [List.foldl_cons]
    cases hm : alookup m r with
    | some v =>
      have hstep : fimStep f (m, acc) r
          = (updateVal m r (f v).1, if (f v).2 then insertS acc r else acc) := by
        unfold fimStep
        rw [hm]
      rw [hstep]
      obtain ⟨ihk, ihl, ihm2⟩ :=
        ih (updateVal m r (f v).1) (if (f v).2 then insertS acc r else acc) hnd_rest
      have hflagm1 : ∀ y, y ≠ r → fimFlag f (updateVal m r (f v).1) y = fimFlag f m y := by
        intro y hy
        unfold fimFlag
        rw [updateVal_lookup_other m r y (f v).1 hy]
      refine ⟨?_, ?_, ?_⟩
      · rw [ihk, updateVal_keys]
      · intro k
        rw [ihl k]
        by_cases hkr : k = r
        · subst hkr
          rw [if_neg hr_rest, if_pos (List.mem_cons_self k rest)]
          rw [updateVal_lookup_self m k (f v).1 v hm, hm]
          rfl
        · rw [updateVal_lookup_other m r k (f v).1 hkr]
          by_cases hkrest : k ∈ rest
          · rw [if_pos hkrest, if_pos (List.mem_cons_of_mem r hkrest)]
          · have hknc : k ∉ r :: rest := by
              intro hc
              rcases List.mem_cons.mp hc with h | h
              · exact hkr h
              · exact hkrest h
            rw [if_neg hkrest, if_neg hknc]
      · intro x
        rw [ihm2 x]
        by_cases hfv : (f v).2
        · rw [if_pos hfv, mem_insertS]
          constructor
          · rintro ((hx | hx) | ⟨hxr, hxf⟩)
            · exact Or.inl hx
            · refine Or.inr ⟨?_, ?_⟩
              · subst hx
                exact List.mem_cons_self x rest
              · subst hx
                unfold fimFlag
                rw [hm]
                exact hfv
            · have hxner : x ≠ r := fun hc => hr_rest (hc ▸ hxr)
              refine Or.inr ⟨List.mem_cons_of_mem r hxr, ?_⟩
              rw [← hflagm1 x hxner]
              exact hxf
          · rintro (hx | ⟨hxm, hxf⟩)
            · exact Or.inl (Or.inl hx)
            · rcases List.mem_cons.mp hxm with hx1 | hx1
              · exact Or.inl (Or.inr hx1)
              · have hxner : x ≠ r := fun hc => hr_rest (hc ▸ hx1)
                refine Or.inr ⟨hx1, ?_⟩
                rw [hflagm1 x hxner]
                exact hxf
        · rw [if_neg hfv]
          have hfmr : fimFlag f m r = false := by
            unfold fimFlag
            rw [hm]
            show (f v).2 = false
            cases hb : (f v).2
            · rfl
            · exact absurd hb hfv
          constructor
          · rintro (hx | ⟨hxr, hxf⟩)
            · exact Or.inl hx
            · have hxner : x ≠ r := fun hc => hr_rest (hc ▸ hxr)
              refine Or.inr ⟨List.mem_cons_of_mem r hxr, ?_⟩
              rw [← hflagm1 x hxner]
              exact hxf
          · rintro (hx | ⟨hxm, hxf⟩)
            · exact Or.inl hx
            · rcases List.mem_cons.mp hxm with hx1 | hx1
              · subst hx1
                rw [hfmr] at hxf
                cases hxf
              · have hxner : x ≠ r := fun hc => hr_rest (hc ▸ hx1)
                refine Or.inr ⟨hx1, ?_⟩
                rw [hflagm1 x hxner]
                exact hxf
    | none =>
      have hstep : fimStep f (m, acc) r = (m, insertS acc r) := by
        unfold fimStep
        rw [hm]
      rw [hstep]
      obtain ⟨ihk, ihl, ihm2⟩ := ih m (insertS acc r) hnd_rest
      have hfmr : fimFlag f m r = true := by
        unfold fimFlag
        rw [hm]
      refine ⟨ihk, ?_, ?_⟩
      · intro k
        rw [ihl k]
        by_cases hkr : k = r
        · subst hkr
          rw [if_neg hr_rest, if_pos (List.mem_cons_self k rest), hm]
          rfl
        · by_cases hkrest : k ∈ rest
          · rw [if_pos hkrest, if_pos (List.mem_cons_of_mem r hkrest)]
          · have hknc : k ∉ r :: rest := by
              intro hc
              rcases List.mem_cons.mp hc with h | h
              · exact hkr h
              · exact hkrest h
            rw [if_neg hkrest, if_neg hknc]
      · intro x
        rw [ihm2 x, mem_insertS]
        constructor
        · rintro ((hx | hx) | ⟨hxr, hxf⟩)
          · exact Or.inl hx
          · refine Or.inr ⟨?_, ?_⟩
            · subst hx
              exact List.mem_cons_self x rest
            · subst hx
              exact hfmr
          · exact Or.inr ⟨List.mem_cons_of_mem r hxr, hxf⟩
        · rintro (hx | ⟨hxm, hxf⟩)
          · exact Or.inl (Or.inl hx)
          · rcases List.mem_cons.mp hxm with hx1 | hx1
            · exact Or.inl (Or.inr hx1)
            · exact Or.inr ⟨hx1, hxf⟩

theorem fimFlag_eq_false_iff {T : Type} (f : T → T × Bool) (m : List (ERef × T)) (r : ERef) :
    fimFlag f m r = false ↔ ∃ v, alookup m r = some v ∧ (f v).2 = false := by
  unfold fimFlag
  cases hm : alookup m r with
  | none => simp
  | some v =>
    constructor
    · intro h
      exact ⟨v, rfl, h⟩
    · rintro ⟨w, hw, hfw⟩
      cases hw
      exact hfw

/-- C6: after `for_each_in_mut`, the derived index contains exactly the
identities it held before that resolve in the owning store and whose
callback returned `false`; every identity flagged by the callback is
removed from the store (and hence, with identities already absent, from
the index); surviving visited identities resolve to their mutated value;
and entities of the store not listed in the index are untouched. -/
theorem c6_for_each_in_mut_spec {T : Type} (s : EntitySet T) (idx : EntityRefSet T)
    (f : T → T × Bool) (hidx : idx.refs.Nodup) :
    (∀ r, r ∈ (s.for_each_in_mut idx f).2.refs
        ↔ r ∈ idx.refs ∧ ∃ v, s.getE r = some v ∧ (f v).2 = false)
      ∧ (∀ r v, r ∈ idx.refs → s.getE r = some v → (f v).2 = false →
          (s.for_each_in_mut idx f).1.getE r = some (f v).1)
      ∧ (∀ r v, r ∈ idx.refs → s.getE r = some v → (f v).2 = true →
          (s.for_each_in_mut idx f).1.getE r = none)
      ∧ (∀ r, r ∉ idx.refs → (s.for_each_in_mut idx f).1.getE r = s.getE r) := by
  obtain ⟨hkeys, hlook, hmem⟩ := fim_foldl_char f idx.refs s.entities [] hidx
  have hP2 : ∀ x, x ∈ (idx.refs.foldl (fimStep f) (s.entities, [])).2
      ↔ (x ∈ idx.refs ∧ fimFlag f s.entities x = true) := by
    intro x
    rw [hmem x]
    simp
  refine ⟨?_, ?_, ?_, ?_⟩
  · intro r
    show r ∈ idx.refs.filter
        (fun r => !(containsR (idx.refs.foldl (fimStep f) (s.entities, [])).2 r)) ↔ _
    rw [List.mem_filter]
    constructor
    · rintro ⟨hin, hp⟩
      have hnot : r ∉ (idx.refs.foldl (fimStep f) (s.entities, [])).2 := by
        simpa [containsR] using hp
      have hfl : fimFlag f s.entities r = false := by
        cases hb : fimFlag f s.entities r
        · rfl
        · exact absurd ((hP2 r).mpr ⟨hin, hb⟩) hnot
      exact ⟨hin, (fimFlag_eq_false_iff f s.entities r).mp hfl⟩
    · rintro ⟨hin, v, hv, hfv⟩
      refine ⟨hin, ?_⟩
      have hv2 : alookup s.entities r = some v := hv
      have hfl : fimFlag f s.entities r = false :=
        (fimFlag_eq_false_iff f s.entities r).mpr ⟨v, hv2, hfv⟩
      have hnot : r ∉ (idx.refs.foldl (fimStep f) (s.entities, [])).2 := by
        intro hc
        have := ((hP2 r).mp hc).2
        rw [hfl] at this
        cases this
      simpa [containsR] using hnot
  · intro r v hin hv hfv
    have hv2 : alookup s.entities r = some v := hv
    show alookup ((idx.refs.foldl (fimStep f) (s.entities, [])).1.filter
        (fun p => !(containsR (idx.refs.foldl (fimStep f) (s.entities, [])).2 p.1))) r
      = some (f v).1
    rw [alookup_filter_not_contains]
    have hnot : r ∉ (idx.refs.foldl (fimStep f) (s.entities, [])).2 := by
      intro hc
      have := ((hP2 r).mp hc).2
      rw [(fimFlag_eq_false_iff f s.entities r).mpr ⟨v, hv2, hfv⟩] at this
      cases this
    rw [if_neg hnot, hlook r, if_pos hin, hv2]
    rfl
  · intro r v hin hv hfv
    have hv2 : alookup s.entities r = some v := hv
    show alookup ((idx.refs.foldl (fimStep f) (s.entities, [])).1.filter
        (fun p => !(containsR (idx.refs.foldl (fimStep f) (s.entities, [])).2 p.1))) r
      = none
    rw [alookup_filter_not_contains]
    have hyes : r ∈ (idx.refs.foldl (fimStep f) (s.entities, [])).2 := by
      refine (hP2 r).mpr ⟨hin, ?_⟩
      unfold fimFlag
      rw [hv2]
      exact hfv
    rw [if_pos hyes]
  · intro r hnotin
    show alookup ((idx.refs.foldl (fimStep f) (s.entities, [])).1.filter
        (fun p => !(containsR (idx.refs.foldl (fimStep f) (s.entities, [])).2 p.1))) r
      = s.getE r
    rw [alookup_filter_not_contains]
    have hnot : r ∉ (idx.refs.foldl (fimStep f) (s.entities, [])).2 :=
      fun hc => hnotin ((hP2 r).mp hc).1
    rw [if_neg hnot, hlook r, if_neg hnotin]
    rfl

theorem c6_witness :
    (cexSet.for_each_in_mut ⟨[0, 1, 5]⟩ cexF).1.getE 0 = some (cexF 10).1 :=
  (c6_for_each_in_mut_spec cexSet ⟨[0, 1, 5]⟩ cexF (by decide)).2.1 0 10
    (by decide) (by decide) (by decide)

end EngineProof
